import Mathlib

/-!
Verification of the volumetric lung-segmentation core of
`lung_segmentation_tool` (file `segmenter.py`) against its design
specification.

The embedding models a 3-D scan volume as a function from voxel indices to
integer intensities.  `skimage.measure.label` (an external capability the
code consumes) is modelled by `measure_label`, which assigns to every
non-background voxel a label derived from the least raster index reachable
in its connected component; two voxels receive the same label exactly when
they are connected through same-valued neighbours.  `measure.label` is
called by the code with its default connectivity, which is full
connectivity (`input.ndim` orthogonal hops, i.e. 26-connectivity in 3-D
and 8-connectivity in 2-D); the adjacency relation `adjFull` models that.
Label values are order-isomorphic to skimage's (labels ordered by first
raster occurrence of the component), so `np.argmax` tie-breaking in
`largest_label_volume` is preserved.
-/

namespace LungSeg

/-- Voxel index into a `d × h × w` volume, axis order (depth, height, width). -/
abbrev Idx (d h w : ℕ) := Fin d × Fin h × Fin w

/-- A volume of integer scalars (intensities, binary mask values or labels). -/
abbrev Vol (d h w : ℕ) := Idx d h w → ℤ

/-- Raster (C-order) index of a voxel, as used by numpy for flattening. -/
def enc {d h w : ℕ} (p : Idx d h w) : ℕ :=
  p.2.2.val + (p.2.1.val + p.1.val * h) * w

/-- Full connectivity (26-connectivity in 3-D): all coordinates differ by at
most one and the voxels are distinct.  This is skimage's default
(`connectivity = input.ndim`). -/
def adjFull {d h w : ℕ} (p q : Idx d h w) : Prop :=
  p ≠ q ∧ Nat.dist p.1.val q.1.val ≤ 1 ∧ Nat.dist p.2.1.val q.2.1.val ≤ 1 ∧
    Nat.dist p.2.2.val q.2.2.val ≤ 1

instance {d h w : ℕ} (p q : Idx d h w) : Decidable (adjFull p q) := by
  unfold adjFull; infer_instance

/-- Face adjacency (6-connectivity in 3-D): exactly one coordinate differs,
by one.  This is the connectivity the specification describes. -/
def adjFace {d h w : ℕ} (p q : Idx d h w) : Prop :=
  p ≠ q ∧ Nat.dist p.1.val q.1.val + Nat.dist p.2.1.val q.2.1.val +
    Nat.dist p.2.2.val q.2.2.val ≤ 1

instance {d h w : ℕ} (p q : Idx d h w) : Decidable (adjFace p q) := by
  unfold adjFace; infer_instance

/-- One expansion step of a connected component: add every voxel adjacent to
the current set through an equal-valued neighbour. -/
def grow {d h w : ℕ} (adj : Idx d h w → Idx d h w → Prop) [DecidableRel adj]
    (v : Vol d h w) (s : Finset (Idx d h w)) : Finset (Idx d h w) :=
  s ∪ Finset.univ.filter (fun q => ∃ a ∈ s, adj a q ∧ v a = v q)

/-- The connected component of voxel `p` in volume `v` under adjacency
`adj`: voxels reachable from `p` through chains of adjacent, equal-valued
voxels.  Iterating the one-step expansion `card` many times reaches the
closure. -/
def compOf {d h w : ℕ} (adj : Idx d h w → Idx d h w → Prop) [DecidableRel adj]
    (v : Vol d h w) (p : Idx d h w) : Finset (Idx d h w) :=
  (grow adj v)^[Fintype.card (Idx d h w)] {p}

/-- Least raster index occurring in the connected component of `p`.  skimage
assigns component labels in order of first raster occurrence, so using this
value (plus one) as the label reproduces skimage's label ordering exactly,
which is what `np.argmax` tie-breaking in `largest_label_volume` observes. -/
def repEnc {d h w : ℕ} (adj : Idx d h w → Idx d h w → Prop) [DecidableRel adj]
    (v : Vol d h w) (p : Idx d h w) : ℕ :=
  ((compOf adj v p).image enc).min'
    (Finset.Nonempty.image
      ⟨p, by
        have hall : ∀ t : ℕ, p ∈ (grow adj v)^[t] {p} := by
          intro t
          induction t with
          | zero => simp
          | succ t ih =>
            rw [Function.iterate_succ_apply']
            exact Finset.subset_union_left ih
        exact hall (Fintype.card (Idx d h w))⟩
      enc)

/-- Connected-component labeling of a volume with a designated background
value, parameterised by the adjacency relation.  Voxels equal to `bg` get
label 0; every other voxel gets a positive label constant on its connected
component (two equal-valued voxels share a label exactly when connected). -/
def mlabel {d h w : ℕ} (adj : Idx d h w → Idx d h w → Prop) [DecidableRel adj]
    (v : Vol d h w) (bg : ℤ) (p : Idx d h w) : ℤ :=
  if v p = bg then 0 else (repEnc adj v p : ℤ) + 1

/-- Model of `skimage.measure.label` as called by `segmenter.py`: default
connectivity (full 26-connectivity in 3-D, 8-connectivity for 2-D slices)
and background label 0 for voxels whose value equals `bg`. -/
def measure_label {d h w : ℕ} (v : Vol d h w) (bg : ℤ) : Idx d h w → ℤ :=
  mlabel adjFull v bg

/-- Labeling step as the specification describes it: face connectivity only
(6-connectivity in 3-D).  Used solely to compare the code's behaviour with
the specified one. -/
def measure_label_face {d h w : ℕ} (v : Vol d h w) (bg : ℤ) : Idx d h w → ℤ :=
  mlabel adjFace v bg

/-- Insert a value into an ascending list, keeping it ascending.  Together
with `insSort` this models the sorted order of `np.unique`. -/
def insertSorted (x : ℤ) : List ℤ → List ℤ
  | [] => [x]
  | y :: ys => if x ≤ y then x :: y :: ys else y :: insertSorted x ys

/-- Insertion sort on integer lists (ascending), modelling the sorted output
of `np.unique`. -/
def insSort : List ℤ → List ℤ
  | [] => []
  | x :: xs => insertSorted x (insSort xs)

/-- First-maximum scan: returns the first element (of `best` followed by the
remaining candidates) whose count in `im` is maximal, replacing the current
best only on a strictly greater count.  This models `vals[np.argmax(counts)]`,
since `np.argmax` returns the first index attaining the maximum. -/
def argmaxCount (im : List ℤ) (best : ℤ) : List ℤ → ℤ
  | [] => best
  | u :: rest =>
    if im.count best < im.count u then argmaxCount im u rest
    else argmaxCount im best rest

/-- Model of `largest_label_volume(im, bg)` from `segmenter.py`:
`np.unique(im, return_counts=True)` yields the sorted distinct values with
their occurrence counts; values equal to `bg` are filtered out of both
arrays; if any remain, the one with the (first) maximal count is returned,
otherwise `None`.  The array is modelled by the list of its elements (the
order is irrelevant to `np.unique`). -/
def largest_label_volume (im : List ℤ) (bg : ℤ) : Option ℤ :=
  match (insSort im.dedup).filter (fun u => u ≠ bg) with
  | [] => none
  | v :: rest => some (argmaxCount im v rest)

/-- All voxel indices of a `d × h × w` volume in raster (C) order, the order
in which numpy flattens an array. -/
def allIdx (d h w : ℕ) : List (Idx d h w) :=
  (List.finRange d).flatMap (fun i =>
    (List.finRange h).flatMap (fun j =>
      (List.finRange w).map (fun k => (i, j, k))))

/-- List of a volume's values in raster order; stands for the numpy array
itself where only its multiset of elements matters (`np.unique`). -/
def flatten {d h w : ℕ} (v : Vol d h w) : List ℤ :=
  (allIdx d h w).map v

/-- Line 23 of `segmenter.py`:
`binary_image = np.array(image > -320, dtype=np.int8) + 1`, so a voxel
denser than the −320 cutoff becomes 2 and any other voxel becomes 1.
`np.array` allocates a fresh buffer, so `image` itself is never written. -/
def thresholdStage {d h w : ℕ} (image : Vol d h w) : Vol d h w :=
  fun p => if image p > -320 then 2 else 1

/-- Lines 25–29 of `segmenter.py`: label the thresholded volume
(`labels = measure.label(binary_image)`), read the label of the corner
voxel (`background_label = labels[0, 0, 0]`), and set every voxel carrying
that label to 2 (`binary_image[background_label == labels] = 2`). -/
def airFillStage {d h w : ℕ} (b : Vol d h w) (c : Idx d h w) : Vol d h w :=
  fun p => if measure_label b 0 c = measure_label b 0 p then 2 else b p

/-- The 2-D axial slice `binary_image[i]`, viewed as a `1 × h × w` volume so
that 26-connectivity on it coincides with skimage's default 8-connectivity
for a 2-D array. -/
def sliceVol {d h w : ℕ} (b : Vol d h w) (i : Fin d) : Vol 1 h w :=
  fun p => b (i, p.2.1, p.2.2)

/-- Lines 33–40 of `segmenter.py`, body of the `fill_lung_structures` loop
for one slice: `axial_slice = axial_slice - 1` (a fresh array, value 1 on
dense voxels and 0 elsewhere), `labeling = measure.label(axial_slice)`
(labels the nonzero, i.e. dense, regions), `l_max =
largest_label_volume(labeling, bg=0)`, and if `l_max is not None` then
`binary_image[i][labeling != l_max] = 1`. -/
def fillSliceStep {h w : ℕ} (s : Vol 1 h w) : Vol 1 h w :=
  match largest_label_volume (flatten (measure_label (fun p => s p - 1) 0)) 0 with
  | none => s
  | some lm => fun p =>
      if measure_label (fun q => s q - 1) 0 p ≠ lm then 1 else s p

/-- Lines 32–40 of `segmenter.py`: the per-slice loop.  Each iteration
reads and writes only slice `i` of `binary_image`, so the loop is an
independent per-slice map. -/
def fillStage {d h w : ℕ} (b : Vol d h w) : Vol d h w :=
  fun p => fillSliceStep (sliceVol b p.1) (0, p.2.1, p.2.2)

/-- Lines 43–44 of `segmenter.py`: `binary_image -= 1` followed by
`binary_image = 1 - binary_image`, i.e. pointwise `1 - (x - 1)`. -/
def invertStage {d h w : ℕ} (b : Vol d h w) : Vol d h w :=
  fun p => 1 - (b p - 1)

/-- Lines 46–49 of `segmenter.py`:
`labels = measure.label(binary_image, background=0)`,
`l_max = largest_label_volume(labels, bg=0)`, and if `l_max is not None`
then `binary_image[labels != l_max] = 0`. -/
def keepLargestStage {d h w : ℕ} (b : Vol d h w) : Vol d h w :=
  match largest_label_volume (flatten (measure_label b 0)) 0 with
  | none => b
  | some lm => fun p => if measure_label b 0 p ≠ lm then 0 else b p

/-- The corner voxel `[0, 0, 0]` used for background disambiguation. -/
def corner0 (d h w : ℕ) : Idx (d + 1) (h + 1) (w + 1) := (0, 0, 0)

/-- `segment_lungs(image, fill_lung_structures)` from `segmenter.py`, for a
non-degenerate volume (every axis of positive extent, so that the corner
voxel access `labels[0, 0, 0]` is in bounds): threshold at −320,
connected-component labeling plus corner-label fill, the optional per-slice
fill loop, inversion, and retention of the voxels labeled like the largest
component.  The output shape equals the input shape by construction, as in
the code where every step is an elementwise or masked-assignment operation
on a same-shaped buffer. -/
def segment_lungs {d h w : ℕ} (image : Vol (d + 1) (h + 1) (w + 1))
    (fill_lung_structures : Bool) : Vol (d + 1) (h + 1) (w + 1) :=
  let binary1 := thresholdStage image
  let binary2 := airFillStage binary1 (corner0 d h w)
  let binary3 := if fill_lung_structures then fillStage binary2 else binary2
  keepLargestStage (invertStage binary3)

/-- Per-slice fill as the specification's sentence describes it (labeling
run on the slice's NON-dense voxels, keeping the largest non-dense region
and reclassifying every other non-dense region as tissue).  Written from
the spec's words, only to compare against `fillSliceStep` from the code. -/
def fillSliceStepSpec {h w : ℕ} (s : Vol 1 h w) : Vol 1 h w :=
  match largest_label_volume (flatten (measure_label (fun p => 2 - s p) 0)) 0 with
  | none => s
  | some lm => fun p =>
      if measure_label (fun q => 2 - s q) 0 p ≠ lm ∧ s p = 1 then 2 else s p

/-- Pipeline variant whose fill stage follows the specification's wording;
used only for the comparison in claim C1. -/
def fillStageSpec {d h w : ℕ} (b : Vol d h w) : Vol d h w :=
  fun p => fillSliceStepSpec (sliceVol b p.1) (0, p.2.1, p.2.2)

/-- `segment_lungs` with the fill stage replaced by the specification's
version; used only for the comparison in claim C1. -/
def segment_lungs_specFill {d h w : ℕ} (image : Vol (d + 1) (h + 1) (w + 1))
    (fill_lung_structures : Bool) : Vol (d + 1) (h + 1) (w + 1) :=
  let binary1 := thresholdStage image
  let binary2 := airFillStage binary1 (corner0 d h w)
  let binary3 := if fill_lung_structures then fillStageSpec binary2 else binary2
  keepLargestStage (invertStage binary3)

/-- Value of `binary_image` in `segment_lungs` just before the line
`binary_image -= 1`: the thresholded, corner-filled volume, with the
per-slice fill applied when `fill_lung_structures` is set. -/
def preInvert {d h w : ℕ} (image : Vol (d + 1) (h + 1) (w + 1)) (fill : Bool) :
    Vol (d + 1) (h + 1) (w + 1) :=
  if fill then fillStage (airFillStage (thresholdStage image) (corner0 d h w))
  else airFillStage (thresholdStage image) (corner0 d h w)

/-- Outcome of calling `segment_lungs` on a possibly degenerate volume.
`cornerIndexOut` stands for the `IndexError` that `labels[0, 0, 0]` raises
when some axis has extent 0; `inputShapeError` stands for the input-shape
validation error the specification describes. -/
inductive SegFailure where
  | cornerIndexOut : SegFailure
  | inputShapeError : SegFailure
deriving DecidableEq

/-- `segment_lungs` as it actually behaves on arbitrary (possibly
degenerate) shapes: thresholding and labeling are total, but the corner
voxel access `labels[0, 0, 0]` raises an `IndexError` when any axis has
extent 0.  No result buffer is produced in that case (the exception
propagates before the function returns). -/
def segment_lungs_run (d h w : ℕ) (image : Vol d h w) (fill : Bool) :
    Except SegFailure (Vol d h w) :=
  match d, h, w, image with
  | _ + 1, _ + 1, _ + 1, image => Except.ok (segment_lungs image fill)
  | 0, _, _, _ => Except.error SegFailure.cornerIndexOut
  | _ + 1, 0, _, _ => Except.error SegFailure.cornerIndexOut
  | _ + 1, _ + 1, 0, _ => Except.error SegFailure.cornerIndexOut

/-- Modelled from the spec: the segmentation entry point validates the
input volume's shape and raises an input-shape error for degenerate
dimensions before the segmentation algorithm begins.  The validating caller
(the `lung_segmentation_tool.cli` entry point named by `setup.py`) is not
part of the sources under `src/`; this definition follows the
specification's error-handling taxonomy: "input-shape errors — raised when
an input volume has degenerate dimensions (caught before segmentation
begins, not mid-algorithm)". -/
def segment_lungs_validated (d h w : ℕ) (image : Vol d h w) (fill : Bool) :
    Except SegFailure (Vol d h w) :=
  match d, h, w, image with
  | _ + 1, _ + 1, _ + 1, image => Except.ok (segment_lungs image fill)
  | 0, _, _, _ => Except.error SegFailure.inputShapeError
  | _ + 1, 0, _, _ => Except.error SegFailure.inputShapeError
  | _ + 1, _ + 1, 0, _ => Except.error SegFailure.inputShapeError

/-- Record of the call `measure.marching_cubes(p, threshold,
step_size=step_size)` made by `generate_mesh_from_scan`: the (transposed)
volume handed over, the iso-surface level, and the sub-sampling step.  The
extraction routine itself is an external capability; the claims about
`generate_mesh_from_scan` concern the arguments of this call. -/
structure MarchingCubesCall (d h w : ℕ) where
  volume : Idx w h d → ℤ
  level : ℚ
  step_size : ℕ

/-- `generate_mesh_from_scan(binary_image, step_size)` from `segmenter.py`:
`threshold = 0`, `p = binary_image.transpose(2, 1, 0)` (so
`p[x, y, z] = binary_image[z, y, x]`), then
`measure.marching_cubes(p, threshold, step_size=step_size)`. -/
def generate_mesh_from_scan {d h w : ℕ} (binary_image : Vol d h w)
    (step_size : ℕ) : MarchingCubesCall d h w :=
  let threshold : ℚ := 0
  { volume := fun p => binary_image (p.2.2, p.2.1, p.1)
    level := threshold
    step_size := step_size }

/-- The output mask re-expressed in the original threshold sense: mask
voxels (value 1, lung air) become an intensity below the −320 cutoff and
background voxels an intensity above it, so that re-thresholding recovers
the mask. -/
def maskAsScan {d h w : ℕ} (m : Vol d h w) : Vol d h w :=
  fun p => if m p = 1 then -1000 else 0

/-- The buffers live during a `segment_lungs` call: the caller's `image`
argument and the locals `binary_image` and `labels`.  Each step of
`segment_lungs_state` mirrors one line of the source, writing the buffer
that line writes; `image` is only ever read (`np.array(image > -320, ...)`
allocates a fresh buffer, so later in-place masked assignments to
`binary_image` cannot alias it). -/
structure SegmenterState (d h w : ℕ) where
  image : Vol d h w
  binary_image : Vol d h w
  labelsBuf : Idx d h w → ℤ

/-- Line 23: allocate `binary_image` from a read of `image`. -/
def stateThreshold {d h w : ℕ} (s : SegmenterState d h w) : SegmenterState d h w :=
  { s with binary_image := thresholdStage s.image }

/-- Line 25: `labels = measure.label(binary_image)`. -/
def stateLabel1 {d h w : ℕ} (s : SegmenterState d h w) : SegmenterState d h w :=
  { s with labelsBuf := measure_label s.binary_image 0 }

/-- Lines 27–29: in-place masked assignment
`binary_image[background_label == labels] = 2`. -/
def stateCornerFill {d h w : ℕ} (s : SegmenterState d h w) (c : Idx d h w) :
    SegmenterState d h w :=
  { s with binary_image := fun p =>
      if s.labelsBuf c = s.labelsBuf p then 2 else s.binary_image p }

/-- Lines 31–40: the optional per-slice fill loop, writing `binary_image`
slice by slice. -/
def stateFill {d h w : ℕ} (fill : Bool) (s : SegmenterState d h w) :
    SegmenterState d h w :=
  { s with binary_image := if fill then fillStage s.binary_image else s.binary_image }

/-- Lines 43–44: in-place decrement then reassignment of `binary_image`. -/
def stateInvert {d h w : ℕ} (s : SegmenterState d h w) : SegmenterState d h w :=
  { s with binary_image := invertStage s.binary_image }

/-- Line 46: `labels = measure.label(binary_image, background=0)`. -/
def stateLabel2 {d h w : ℕ} (s : SegmenterState d h w) : SegmenterState d h w :=
  { s with labelsBuf := measure_label s.binary_image 0 }

/-- Lines 47–49: in-place masked assignment `binary_image[labels != l_max] = 0`
when a largest component exists. -/
def stateKeepLargest {d h w : ℕ} (s : SegmenterState d h w) : SegmenterState d h w :=
  { s with binary_image :=
      match largest_label_volume (flatten s.labelsBuf) 0 with
      | none => s.binary_image
      | some lm => fun p => if s.labelsBuf p ≠ lm then 0 else s.binary_image p }

/-- The whole `segment_lungs` body as a sequence of buffer updates. -/
def segment_lungs_state {d h w : ℕ} (fill : Bool)
    (s : SegmenterState (d + 1) (h + 1) (w + 1)) :
    SegmenterState (d + 1) (h + 1) (w + 1) :=
  stateKeepLargest (stateLabel2 (stateInvert (stateFill fill
    (stateCornerFill (stateLabel1 (stateThreshold s)) (corner0 d h w)))))

/-- Buffer state of a `generate_mesh_from_scan` call: the caller's mask.
`binary_image.transpose(2, 1, 0)` is a read-only view and
`measure.marching_cubes` only reads it. -/
structure MeshExtractState (d h w : ℕ) where
  mask : Vol d h w

/-- `generate_mesh_from_scan` as a state transition: it produces the
marching-cubes call and leaves the state's buffers as they were. -/
def generate_mesh_state {d h w : ℕ} (t : MeshExtractState d h w)
    (step_size : ℕ) : MeshExtractState d h w × MarchingCubesCall d h w :=
  (t, generate_mesh_from_scan t.mask step_size)

/-- Concrete 1×2×3 test volume for claim C1: column 0 dense (the body), a
one-voxel dense island at (0, 0, 2) inside the air region, air elsewhere. -/
def imgC1 : Vol 1 2 3 :=
  fun p => if p.2.2.val = 0 ∨ (p.2.1.val = 0 ∧ p.2.2.val = 2) then 0 else -1000

/-- Thresholded form of `imgC1` (also equal to its corner-filled form,
since the corner's dense component is already 2). -/
def binC1 : Vol 1 2 3 :=
  fun p => if p.2.2.val = 0 ∨ (p.2.1.val = 0 ∧ p.2.2.val = 2) then 2 else 1

/-- `binC1` after the code's per-slice fill: the dense island, being a
smaller dense component than column 0, is reclassified as non-dense. -/
def binC1fill : Vol 1 2 3 := fun p => if p.2.2.val = 0 then 2 else 1

/-- Concrete 1×2×2 volume for claim C2: air on the diagonal, dense off it,
so the two air voxels touch only diagonally. -/
def imgC2 : Vol 1 2 2 :=
  fun p => if p.2.1.val = p.2.2.val then -1000 else 0

/-- Thresholded form of `imgC2`. -/
def binC2 : Vol 1 2 2 :=
  fun p => if p.2.1.val = p.2.2.val then 1 else 2

/-- Concrete 1×2×3 test volume for claim C7: a one-voxel dense island at
the corner (0, 0, 0), air next to it, and a dense block on column 2. -/
def imgC7 : Vol 1 2 3 :=
  fun p => if (p.2.1.val = 0 ∧ p.2.2.val = 0) ∨ p.2.2.val = 2 then 0 else -1000

/-- Expected segmentation of `imgC7` with the fill stage enabled: the
corner island is merged into the mask, so columns 0–1 are foreground. -/
def maskC7 : Vol 1 2 3 := fun p => if p.2.2.val ≤ 1 then 1 else 0

/-- Thresholded form of `imgC7`. -/
def binC7 : Vol 1 2 3 :=
  fun p => if (p.2.1.val = 0 ∧ p.2.2.val = 0) ∨ p.2.2.val = 2 then 2 else 1

/-- `binC7` after the code's per-slice fill: the corner island (a dense
component smaller than the block on column 2) is reclassified as
non-dense. -/
def binC7fill : Vol 1 2 3 := fun p => if p.2.2.val = 2 then 2 else 1

/-- Thresholded form of `maskAsScan maskC7`, the input of the second
segmentation run in claim C7's counterexample. -/
def binC7b : Vol 1 2 3 := fun p => if p.2.2.val ≤ 1 then 1 else 2

/-- Tiny 1×1×2 volume used by several witnesses: a dense corner voxel and
one air voxel. -/
def imgW : Vol 1 1 2 := fun p => if p.2.2.val = 1 then -1000 else 0

/-- Thresholded form of `imgW`. -/
def binW : Vol 1 1 2 := fun p => if p.2.2.val = 1 then 1 else 2

/-- Constant 1×1×2 volume used by the witness of claim C2's theorem. -/
def volConst : Vol 1 1 2 := fun _ => 5

theorem subset_grow {d h w : ℕ} (adj : Idx d h w → Idx d h w → Prop)
    [DecidableRel adj] (v : Vol d h w) (s : Finset (Idx d h w)) :
    s ⊆ grow adj v s :=
  Finset.subset_union_left

theorem self_mem_compOf {d h w : ℕ} (adj : Idx d h w → Idx d h w → Prop)
    [DecidableRel adj] (v : Vol d h w) (p : Idx d h w) :
    p ∈ compOf adj v p := by
  have h : ∀ t : ℕ, p ∈ (grow adj v)^[t] {p} := by
    intro t
    induction t with
    | zero => simp
    | succ t ih =>
      rw [Function.iterate_succ_apply']
      exact subset_grow adj v _ ih
  exact h _

theorem grow_fixed_iterate {d h w : ℕ} {adj : Idx d h w → Idx d h w → Prop}
    [DecidableRel adj] {v : Vol d h w} {s : Finset (Idx d h w)}
    (hfix : grow adj v s = s) : ∀ k : ℕ, (grow adj v)^[k] s = s := by
  intro k
  induction k with
  | zero => rfl
  | succ k ih => rw [Function.iterate_succ_apply', ih, hfix]

theorem exists_grow_fixed {d h w : ℕ} (adj : Idx d h w → Idx d h w → Prop)
    [DecidableRel adj] (v : Vol d h w) (p : Idx d h w) : ∀ t : ℕ,
    (∃ t' ≤ t, grow adj v ((grow adj v)^[t'] {p}) = (grow adj v)^[t'] {p}) ∨
      t + 1 ≤ ((grow adj v)^[t] {p}).card := by
  intro t
  induction t with
  | zero =>
    right
    simp
  | succ t ih =>
    rcases ih with ⟨t', ht', hfix⟩ | hcard
    · exact Or.inl ⟨t', le_trans ht' (Nat.le_succ t), hfix⟩
    · by_cases heq : grow adj v ((grow adj v)^[t] {p}) = (grow adj v)^[t] {p}
      · exact Or.inl ⟨t, Nat.le_succ t, heq⟩
      · right
        have hsub : (grow adj v)^[t] {p} ⊆ (grow adj v)^[t + 1] {p} := by
          rw [Function.iterate_succ_apply']
          exact subset_grow adj v _
        have hne : (grow adj v)^[t] {p} ≠ (grow adj v)^[t + 1] {p} := by
          rw [Function.iterate_succ_apply']
          exact fun h => heq h.symm
        have hlt : ((grow adj v)^[t] {p}).card < ((grow adj v)^[t + 1] {p}).card :=
          Finset.card_lt_card ⟨hsub, fun h => hne (Finset.Subset.antisymm hsub h)⟩
        omega

theorem compOf_fixed {d h w : ℕ} (adj : Idx d h w → Idx d h w → Prop)
    [DecidableRel adj] (v : Vol d h w) (p : Idx d h w) :
    grow adj v (compOf adj v p) = compOf adj v p := by
  rcases exists_grow_fixed adj v p (Fintype.card (Idx d h w)) with ⟨t', ht', hfix⟩ | hcard
  · have hstable : (grow adj v)^[Fintype.card (Idx d h w)] {p} = (grow adj v)^[t'] {p} := by
      conv_lhs => rw [← Nat.sub_add_cancel ht']
      rw [Function.iterate_add_apply]
      exact grow_fixed_iterate hfix _
    unfold compOf
    rw [hstable]
    exact hfix
  · exfalso
    have hle : ((grow adj v)^[Fintype.card (Idx d h w)] {p}).card ≤ Fintype.card (Idx d h w) :=
      Finset.card_le_univ _
    omega

theorem mem_compOf_iff {d h w : ℕ} (adj : Idx d h w → Idx d h w → Prop)
    [DecidableRel adj] (v : Vol d h w) (p q : Idx d h w) :
    q ∈ compOf adj v p ↔
      Relation.ReflTransGen (fun a b => adj a b ∧ v a = v b) p q := by
  constructor
  · have haux : ∀ (t : ℕ) (x : Idx d h w), x ∈ (grow adj v)^[t] {p} →
        Relation.ReflTransGen (fun a b => adj a b ∧ v a = v b) p x := by
      intro t
      induction t with
      | zero =>
        intro x hx
        simp only [Function.iterate_zero, id_eq, Finset.mem_singleton] at hx
        subst hx
        exact Relation.ReflTransGen.refl
      | succ t ih =>
        intro x hx
        rw [Function.iterate_succ_apply', grow, Finset.mem_union] at hx
        rcases hx with hx | hx
        · exact ih x hx
        · rw [Finset.mem_filter] at hx
          obtain ⟨-, a, ha, hstep⟩ := hx
          exact Relation.ReflTransGen.tail (ih a ha) hstep
    exact haux (Fintype.card (Idx d h w)) q
  · intro h
    induction h with
    | refl => exact self_mem_compOf adj v p
    | tail hab hbc ih =>
      rw [← compOf_fixed adj v p, grow, Finset.mem_union]
      right
      rw [Finset.mem_filter]
      exact ⟨Finset.mem_univ _, _, ih, hbc⟩

theorem value_eq_of_mem_compOf {d h w : ℕ} {adj : Idx d h w → Idx d h w → Prop}
    [DecidableRel adj] {v : Vol d h w} {p q : Idx d h w}
    (hq : q ∈ compOf adj v p) : v q = v p := by
  rw [mem_compOf_iff] at hq
  induction hq with
  | refl => rfl
  | tail _ hbc ih => rw [← hbc.2, ih]

theorem compOf_eq_of_mem {d h w : ℕ} {adj : Idx d h w → Idx d h w → Prop}
    [DecidableRel adj] (hsym : ∀ a b, adj a b → adj b a) {v : Vol d h w}
    {p q : Idx d h w} (hq : q ∈ compOf adj v p) :
    compOf adj v q = compOf adj v p := by
  have hsymR : Symmetric (fun a b : Idx d h w => adj a b ∧ v a = v b) :=
    fun a b hab => ⟨hsym a b hab.1, hab.2.symm⟩
  rw [mem_compOf_iff] at hq
  ext x
  rw [mem_compOf_iff, mem_compOf_iff]
  constructor
  · intro hx
    exact Relation.ReflTransGen.trans hq hx
  · intro hx
    exact Relation.ReflTransGen.trans (Relation.ReflTransGen.symmetric hsymR hq) hx

theorem adjFull_symm {d h w : ℕ} : ∀ a b : Idx d h w, adjFull a b → adjFull b a := by
  intro a b hab
  obtain ⟨hne, h1, h2, h3⟩ := hab
  exact ⟨fun hh => hne hh.symm, by rwa [Nat.dist_comm], by rwa [Nat.dist_comm],
    by rwa [Nat.dist_comm]⟩

theorem enc_injective {d h w : ℕ} : ∀ p q : Idx d h w, enc p = enc q → p = q := by
  intro p q hpq
  obtain ⟨⟨i1, hi1⟩, ⟨j1, hj1⟩, ⟨k1, hk1⟩⟩ := p
  obtain ⟨⟨i2, hi2⟩, ⟨j2, hj2⟩, ⟨k2, hk2⟩⟩ := q
  simp only [enc] at hpq
  have hw : 0 < w := by omega
  have hh : 0 < h := by omega
  have hk : k1 = k2 := by
    have e1 : (k1 + (j1 + i1 * h) * w) % w = k1 := by
      rw [Nat.add_mul_mod_self_right, Nat.mod_eq_of_lt hk1]
    have e2 : (k2 + (j2 + i2 * h) * w) % w = k2 := by
      rw [Nat.add_mul_mod_self_right, Nat.mod_eq_of_lt hk2]
    rw [← e1, ← e2, hpq]
  subst hk
  have hm : (j1 + i1 * h) * w = (j2 + i2 * h) * w := by omega
  have hm2 : j1 + i1 * h = j2 + i2 * h := Nat.eq_of_mul_eq_mul_right hw hm
  have hj : j1 = j2 := by
    have e1 : (j1 + i1 * h) % h = j1 := by
      rw [Nat.add_mul_mod_self_right, Nat.mod_eq_of_lt hj1]
    have e2 : (j2 + i2 * h) % h = j2 := by
      rw [Nat.add_mul_mod_self_right, Nat.mod_eq_of_lt hj2]
    rw [← e1, ← e2, hm2]
  subst hj
  have hi : i1 = i2 := by
    have := Nat.eq_of_mul_eq_mul_right hh (by omega : i1 * h = i2 * h)
    omega
  subst hi
  rfl

theorem mlabel_eq_zero_iff {d h w : ℕ} (adj : Idx d h w → Idx d h w → Prop)
    [DecidableRel adj] (v : Vol d h w) (bg : ℤ) (p : Idx d h w) :
    mlabel adj v bg p = 0 ↔ v p = bg := by
  unfold mlabel
  by_cases hp : v p = bg
  · simp [hp]
  · simp only [hp, if_false, iff_false]
    intro hc
    omega

theorem repEnc_eq_of_compOf_eq {d h w : ℕ} {adj : Idx d h w → Idx d h w → Prop}
    [DecidableRel adj] {v : Vol d h w} {p q : Idx d h w}
    (hc : compOf adj v p = compOf adj v q) : repEnc adj v p = repEnc adj v q := by
  unfold repEnc
  apply le_antisymm
  · apply Finset.min'_le
    rw [hc]
    exact Finset.min'_mem _ _
  · apply Finset.min'_le
    rw [← hc]
    exact Finset.min'_mem _ _

theorem mlabel_eq_of_mem {d h w : ℕ} {adj : Idx d h w → Idx d h w → Prop}
    [DecidableRel adj] (hsym : ∀ a b, adj a b → adj b a) {v : Vol d h w}
    {p q : Idx d h w} (hq : q ∈ compOf adj v p) (bg : ℤ) :
    mlabel adj v bg q = mlabel adj v bg p := by
  have hv : v q = v p := value_eq_of_mem_compOf hq
  have hc : compOf adj v q = compOf adj v p := compOf_eq_of_mem hsym hq
  unfold mlabel
  rw [hv, repEnc_eq_of_compOf_eq hc]

theorem compOf_eq_of_mlabel_eq {d h w : ℕ} {adj : Idx d h w → Idx d h w → Prop}
    [DecidableRel adj] (hsym : ∀ a b, adj a b → adj b a) {v : Vol d h w}
    {bg : ℤ} {p q : Idx d h w} (hp : v p ≠ bg) (hq : v q ≠ bg)
    (hl : mlabel adj v bg p = mlabel adj v bg q) :
    compOf adj v p = compOf adj v q := by
  unfold mlabel at hl
  rw [if_neg hp, if_neg hq] at hl
  have hr : repEnc adj v p = repEnc adj v q := by omega
  have hp1 : repEnc adj v p ∈ (compOf adj v p).image enc := by
    unfold repEnc
    exact Finset.min'_mem _ _
  have hq1 : repEnc adj v q ∈ (compOf adj v q).image enc := by
    unfold repEnc
    exact Finset.min'_mem _ _
  rw [Finset.mem_image] at hp1 hq1
  obtain ⟨e1, he1, he1e⟩ := hp1
  obtain ⟨e2, he2, he2e⟩ := hq1
  have hee : e1 = e2 := enc_injective _ _ (by rw [he1e, he2e, hr])
  subst hee
  rw [← compOf_eq_of_mem hsym he1, ← compOf_eq_of_mem hsym he2]

theorem mem_allIdx {d h w : ℕ} (p : Idx d h w) : p ∈ allIdx d h w := by
  unfold allIdx
  simp only [List.mem_flatMap, List.mem_map]
  exact ⟨p.1, List.mem_finRange _, p.2.1, List.mem_finRange _, p.2.2,
    List.mem_finRange _, rfl⟩

theorem mem_flatten {d h w : ℕ} (v : Vol d h w) (x : ℤ) :
    x ∈ flatten v ↔ ∃ p : Idx d h w, v p = x := by
  unfold flatten
  simp only [List.mem_map]
  constructor
  · rintro ⟨p, -, hp⟩
    exact ⟨p, hp⟩
  · rintro ⟨p, hp⟩
    exact ⟨p, mem_allIdx p, hp⟩

theorem mem_insertSorted {x a : ℤ} : ∀ l : List ℤ,
    (a ∈ insertSorted x l ↔ a = x ∨ a ∈ l) := by
  intro l
  induction l with
  | nil => simp [insertSorted]
  | cons y ys ih =>
    unfold insertSorted
    by_cases hxy : x ≤ y
    · simp [hxy]
    · simp only [hxy, if_false, List.mem_cons, ih]
      tauto

theorem mem_insSort {a : ℤ} : ∀ l : List ℤ, (a ∈ insSort l ↔ a ∈ l) := by
  intro l
  induction l with
  | nil => simp [insSort]
  | cons x xs ih =>
    unfold insSort
    rw [mem_insertSorted, List.mem_cons, ih]

theorem mem_filter_vals {im : List ℤ} {bg x : ℤ} :
    x ∈ (insSort im.dedup).filter (fun u => u ≠ bg) ↔ x ∈ im ∧ x ≠ bg := by
  rw [List.mem_filter, mem_insSort, List.mem_dedup]
  simp

theorem largest_label_volume_eq_none_iff (im : List ℤ) (bg : ℤ) :
    largest_label_volume im bg = none ↔ ∀ x ∈ im, x = bg := by
  unfold largest_label_volume
  rcases hval : (insSort im.dedup).filter (fun u => u ≠ bg) with - | ⟨v, rest⟩
  · apply iff_of_true rfl
    intro x hx
    by_contra hne
    have hmem : x ∈ (insSort im.dedup).filter (fun u => u ≠ bg) :=
      mem_filter_vals.mpr ⟨hx, hne⟩
    rw [hval] at hmem
    simp at hmem
  · apply iff_of_false (by simp)
    intro hall
    have hmem : v ∈ (insSort im.dedup).filter (fun u => u ≠ bg) := by
      rw [hval]
      exact List.mem_cons_self v rest
    rw [mem_filter_vals] at hmem
    exact hmem.2 (hall v hmem.1)

theorem argmaxCount_spec (im : List ℤ) : ∀ (rest : List ℤ) (best : ℤ),
    (argmaxCount im best rest ∈ best :: rest) ∧
      im.count best ≤ im.count (argmaxCount im best rest) ∧
      ∀ u ∈ rest, im.count u ≤ im.count (argmaxCount im best rest) := by
  intro rest
  induction rest with
  | nil =>
    intro best
    refine ⟨List.mem_cons_self best [], le_refl _, ?_⟩
    intro u hu
    simp at hu
  | cons x xs ih =>
    intro best
    have hunf : argmaxCount im best (x :: xs) =
        if im.count best < im.count x then argmaxCount im x xs
        else argmaxCount im best xs := rfl
    by_cases hlt : im.count best < im.count x
    · rw [hunf, if_pos hlt]
      obtain ⟨hmem, hle, hall⟩ := ih x
      refine ⟨?_, le_trans (le_of_lt hlt) hle, ?_⟩
      · rcases List.mem_cons.mp hmem with hm | hm
        · rw [hm]
          exact List.mem_cons_of_mem best (List.mem_cons_self x xs)
        · exact List.mem_cons_of_mem best (List.mem_cons_of_mem x hm)
      · intro u hu
        rcases List.mem_cons.mp hu with hu | hu
        · rw [hu]
          exact hle
        · exact hall u hu
    · rw [hunf, if_neg hlt]
      obtain ⟨hmem, hle, hall⟩ := ih best
      refine ⟨?_, hle, ?_⟩
      · rcases List.mem_cons.mp hmem with hm | hm
        · rw [hm]
          exact List.mem_cons_self best (x :: xs)
        · exact List.mem_cons_of_mem best (List.mem_cons_of_mem x hm)
      · intro u hu
        rcases List.mem_cons.mp hu with hu | hu
        · rw [hu]
          exact le_trans (le_of_not_lt hlt) hle
        · exact hall u hu

theorem largest_label_volume_some_spec {im : List ℤ} {bg v : ℤ}
    (hv : largest_label_volume im bg = some v) :
    v ∈ im ∧ v ≠ bg ∧ ∀ u ∈ im, u ≠ bg → im.count u ≤ im.count v := by
  unfold largest_label_volume at hv
  rcases hval : (insSort im.dedup).filter (fun u => u ≠ bg) with - | ⟨v0, rest⟩
  · rw [hval] at hv
    simp at hv
  · rw [hval] at hv
    simp only [Option.some.injEq] at hv
    subst hv
    obtain ⟨hmem, -, hall⟩ := argmaxCount_spec im rest v0
    have hvfil : argmaxCount im v0 rest ∈ (insSort im.dedup).filter (fun u => u ≠ bg) := by
      rw [hval]
      exact hmem
    rw [mem_filter_vals] at hvfil
    refine ⟨hvfil.1, hvfil.2, ?_⟩
    intro u hu hune
    have humem : u ∈ v0 :: rest := by
      have hin : u ∈ (insSort im.dedup).filter (fun p => p ≠ bg) :=
        mem_filter_vals.mpr ⟨hu, hune⟩
      rw [hval] at hin
      exact hin
    rcases List.mem_cons.mp humem with hu0 | hurest
    · subst hu0
      exact (argmaxCount_spec im rest u).2.1
    · exact hall u hurest

theorem invertStage_eq {d h w : ℕ} (b : Vol d h w) (p : Idx d h w) :
    invertStage b p = 2 - b p := by
  unfold invertStage
  ring

theorem thresholdStage_val {d h w : ℕ} (image : Vol d h w) (p : Idx d h w) :
    thresholdStage image p = 1 ∨ thresholdStage image p = 2 := by
  unfold thresholdStage
  split
  · exact Or.inr rfl
  · exact Or.inl rfl

theorem airFillStage_val {d h w : ℕ} {b : Vol d h w} (c : Idx d h w)
    (hb : ∀ q, b q = 1 ∨ b q = 2) (p : Idx d h w) :
    airFillStage b c p = 1 ∨ airFillStage b c p = 2 := by
  unfold airFillStage
  split
  · exact Or.inr rfl
  · exact hb p

theorem fillSliceStep_val {h w : ℕ} {s : Vol 1 h w}
    (hs : ∀ q, s q = 1 ∨ s q = 2) (p : Idx 1 h w) :
    fillSliceStep s p = 1 ∨ fillSliceStep s p = 2 := by
  unfold fillSliceStep
  rcases hm : largest_label_volume
      (flatten (measure_label (fun q => s q - 1) 0)) 0 with - | lm
  · exact hs p
  · show (if measure_label (fun q => s q - 1) 0 p ≠ lm then 1 else s p) = 1 ∨
      (if measure_label (fun q => s q - 1) 0 p ≠ lm then 1 else s p) = 2
    split
    · exact Or.inl rfl
    · exact hs p

theorem fillStage_val {d h w : ℕ} {b : Vol d h w}
    (hb : ∀ q, b q = 1 ∨ b q = 2) (p : Idx d h w) :
    fillStage b p = 1 ∨ fillStage b p = 2 := by
  unfold fillStage
  exact fillSliceStep_val (fun q => hb _) _

theorem keepLargestStage_val {d h w : ℕ} {b : Vol d h w}
    (hb : ∀ q, b q = 0 ∨ b q = 1) (p : Idx d h w) :
    keepLargestStage b p = 0 ∨ keepLargestStage b p = 1 := by
  unfold keepLargestStage
  rcases hm : largest_label_volume (flatten (measure_label b 0)) 0 with - | lm
  · exact hb p
  · show (if measure_label b 0 p ≠ lm then 0 else b p) = 0 ∨
      (if measure_label b 0 p ≠ lm then 0 else b p) = 1
    split
    · exact Or.inl rfl
    · exact hb p

/-- C4: for every input volume (of any positive shape) and either value of
`fill_lung_structures`, every voxel of the mask returned by `segment_lungs`
carries one of exactly two labels, 0 or 1.  The output's shape is identical
to the input's by construction: `segment_lungs : Vol (d+1) (h+1) (w+1) →
Bool → Vol (d+1) (h+1) (w+1)` maps a volume indexed by `Idx (d+1) (h+1)
(w+1)` to a volume indexed by the same type, mirroring that every operation
in the source is an elementwise or masked assignment on a buffer of the
input's shape. -/
theorem C4_segment_output_two_labels {d h w : ℕ}
    (image : Vol (d + 1) (h + 1) (w + 1)) (fill : Bool) (p : Idx (d + 1) (h + 1) (w + 1)) :
    segment_lungs image fill p = 0 ∨ segment_lungs image fill p = 1 := by
  unfold segment_lungs
  apply keepLargestStage_val
  intro q
  have h3 : ∀ r, (if fill then fillStage (airFillStage (thresholdStage image) (corner0 d h w))
      else airFillStage (thresholdStage image) (corner0 d h w)) r = 1 ∨
      (if fill then fillStage (airFillStage (thresholdStage image) (corner0 d h w))
      else airFillStage (thresholdStage image) (corner0 d h w)) r = 2 := by
    intro r
    cases fill
    · simp only [Bool.false_eq_true, if_false]
      exact airFillStage_val _ (thresholdStage_val image) r
    · simp only [if_true]
      exact fillStage_val (airFillStage_val _ (thresholdStage_val image)) r
  rw [invertStage_eq]
  rcases h3 q with hv | hv
  · rw [hv]
    exact Or.inr rfl
  · rw [hv]
    exact Or.inl rfl

theorem measure_label_eq_zero_iff {d h w : ℕ} (v : Vol d h w) (bg : ℤ)
    (p : Idx d h w) : measure_label v bg p = 0 ↔ v p = bg :=
  mlabel_eq_zero_iff adjFull v bg p

theorem measure_label_eq_of_mem {d h w : ℕ} {v : Vol d h w} {p q : Idx d h w}
    (hq : q ∈ compOf adjFull v p) (bg : ℤ) :
    measure_label v bg q = measure_label v bg p :=
  mlabel_eq_of_mem adjFull_symm hq bg

theorem compOf_eq_of_measure_label_eq {d h w : ℕ} {v : Vol d h w} {bg : ℤ}
    {p q : Idx d h w} (hp : v p ≠ bg) (hq : v q ≠ bg)
    (hl : measure_label v bg p = measure_label v bg q) :
    compOf adjFull v p = compOf adjFull v q :=
  compOf_eq_of_mlabel_eq adjFull_symm hp hq hl

theorem segment_lungs_eq_stages {d h w : ℕ} (image : Vol (d + 1) (h + 1) (w + 1))
    (fill : Bool) :
    segment_lungs image fill = keepLargestStage (invertStage (preInvert image fill)) := rfl

theorem preInvert_val {d h w : ℕ} (image : Vol (d + 1) (h + 1) (w + 1))
    (fill : Bool) (p : Idx (d + 1) (h + 1) (w + 1)) :
    preInvert image fill p = 1 ∨ preInvert image fill p = 2 := by
  unfold preInvert
  cases fill
  · simp only [Bool.false_eq_true, if_false]
    exact airFillStage_val _ (thresholdStage_val image) p
  · simp only [if_true]
    exact fillStage_val (airFillStage_val _ (thresholdStage_val image)) p

theorem invert_val {d h w : ℕ} {b : Vol d h w}
    (hb : ∀ q, b q = 1 ∨ b q = 2) (p : Idx d h w) :
    invertStage b p = 0 ∨ invertStage b p = 1 := by
  rw [invertStage_eq]
  rcases hb p with hv | hv <;> rw [hv]
  · exact Or.inr rfl
  · exact Or.inl rfl

theorem llv_labels_none_iff {d h w : ℕ} (b : Vol d h w) :
    largest_label_volume (flatten (measure_label b 0)) 0 = none ↔ ∀ p, b p = 0 := by
  rw [largest_label_volume_eq_none_iff]
  constructor
  · intro hall p
    have hz := hall (measure_label b 0 p) ((mem_flatten _ _).mpr ⟨p, rfl⟩)
    exact (mlabel_eq_zero_iff adjFull b 0 p).mp hz
  · intro hall x hx
    obtain ⟨p, hp⟩ := (mem_flatten _ _).mp hx
    rw [← hp]
    exact (mlabel_eq_zero_iff adjFull b 0 p).mpr (hall p)

theorem keepLargest_none_char {d h w : ℕ} {b : Vol d h w}
    (hnone : largest_label_volume (flatten (measure_label b 0)) 0 = none) :
    keepLargestStage b = b := by
  unfold keepLargestStage
  rw [hnone]

theorem keepLargest_some_char {d h w : ℕ} {b : Vol d h w} {lm : ℤ}
    (hb : ∀ q, b q = 0 ∨ b q = 1)
    (hsome : largest_label_volume (flatten (measure_label b 0)) 0 = some lm) :
    ∀ p, keepLargestStage b p = if measure_label b 0 p = lm then 1 else 0 := by
  intro p
  have hred : keepLargestStage b p = if measure_label b 0 p ≠ lm then 0 else b p := by
    unfold keepLargestStage
    rw [hsome]
  rw [hred]
  have hlm0 : lm ≠ 0 := (largest_label_volume_some_spec hsome).2.1
  by_cases hp : measure_label b 0 p = lm
  · rw [if_neg (fun hc => hc hp), if_pos hp]
    have hbp : b p ≠ 0 := by
      intro hz
      rw [(measure_label_eq_zero_iff b 0 p).mpr hz] at hp
      exact hlm0 hp.symm
    rcases hb p with hv | hv
    · exact absurd hv hbp
    · exact hv
  · rw [if_pos hp, if_neg hp]

theorem exists_point_of_llv_some {d h w : ℕ} {b : Vol d h w} {lm : ℤ}
    (hsome : largest_label_volume (flatten (measure_label b 0)) 0 = some lm) :
    ∃ q0, measure_label b 0 q0 = lm :=
  (mem_flatten _ _).mp (largest_label_volume_some_spec hsome).1

theorem label_eq_lm_iff_mem_comp {d h w : ℕ} {b : Vol d h w} {lm : ℤ}
    {q0 : Idx d h w} (hlm : lm ≠ 0) (hq0 : measure_label b 0 q0 = lm)
    (p : Idx d h w) :
    measure_label b 0 p = lm ↔ p ∈ compOf adjFull b q0 := by
  have hbq0 : b q0 ≠ 0 := by
    intro hz
    rw [(measure_label_eq_zero_iff b 0 q0).mpr hz] at hq0
    exact hlm hq0.symm
  constructor
  · intro hp
    have hbp : b p ≠ 0 := by
      intro hz
      rw [(measure_label_eq_zero_iff b 0 p).mpr hz] at hp
      exact hlm hp.symm
    have hc := compOf_eq_of_measure_label_eq hbp hbq0 (by rw [hp, hq0] :
      measure_label b 0 p = measure_label b 0 q0)
    rw [← hc]
    exact self_mem_compOf adjFull b p
  · intro hp
    rw [measure_label_eq_of_mem hp 0, hq0]

theorem airFill_dense_corner_noop {d h w : ℕ} {b : Vol d h w} {c : Idx d h w}
    (hb : ∀ q, b q = 1 ∨ b q = 2) (hc : b c = 2) : airFillStage b c = b := by
  funext p
  unfold airFillStage
  by_cases hl : measure_label b 0 c = measure_label b 0 p
  · rw [if_pos hl]
    have hbc : b c ≠ 0 := by rw [hc]; decide
    have hbp : b p ≠ 0 := by
      rcases hb p with hv | hv <;> rw [hv] <;> decide
    have hcc := compOf_eq_of_measure_label_eq hbc hbp hl
    have hmem : p ∈ compOf adjFull b c := by
      rw [hcc]
      exact self_mem_compOf adjFull b p
    rw [value_eq_of_mem_compOf hmem, hc]
  · rw [if_neg hl]

theorem threshold_maskAsScan {d h w : ℕ} {M : Vol d h w}
    (hM : ∀ p, M p = 0 ∨ M p = 1) :
    thresholdStage (maskAsScan M) = fun p => 2 - M p := by
  funext p
  unfold thresholdStage maskAsScan
  rcases hM p with hv | hv <;> rw [hv]
  · norm_num
  · norm_num

theorem rtg_value_transfer {d h w : ℕ} {v v2 : Vol d h w} {q0 x : Idx d h w}
    (hx : Relation.ReflTransGen (fun a b => adjFull a b ∧ v a = v b) q0 x)
    (hv2 : ∀ y, Relation.ReflTransGen (fun a b => adjFull a b ∧ v a = v b) q0 y →
      v2 y = v2 q0) :
    Relation.ReflTransGen (fun a b => adjFull a b ∧ v2 a = v2 b) q0 x := by
  induction hx with
  | refl => exact Relation.ReflTransGen.refl
  | tail hab hbc ih =>
    rename_i b2 c2
    refine Relation.ReflTransGen.tail ih ⟨hbc.1, ?_⟩
    rw [hv2 b2 hab, hv2 c2 (Relation.ReflTransGen.tail hab hbc)]

theorem llv_single_label {d h w : ℕ} {L : Idx d h w → ℤ} {v0 : ℤ}
    (hv0 : v0 ≠ 0) (hpres : ∃ p, L p = v0) (hall : ∀ p, L p = 0 ∨ L p = v0) :
    largest_label_volume (flatten L) 0 = some v0 := by
  rcases hres : largest_label_volume (flatten L) 0 with - | u
  · exfalso
    obtain ⟨p, hp⟩ := hpres
    have := (largest_label_volume_eq_none_iff (flatten L) 0).mp hres
      (L p) ((mem_flatten L _).mpr ⟨p, rfl⟩)
    rw [hp] at this
    exact hv0 this
  · have hspec := largest_label_volume_some_spec hres
    obtain ⟨p, hp⟩ := (mem_flatten L u).mp hspec.1
    rcases hall p with hz | hz
    · rw [hp] at hz
      exact absurd hz hspec.2.1
    · rw [hp] at hz
      rw [hz]

theorem keepLargest_of_single_comp {d h w : ℕ} {M : Vol d h w} {q0 : Idx d h w}
    (hval : ∀ p, M p = 0 ∨ M p = 1) (hq0 : M q0 = 1)
    (hcomp : ∀ p, (M p = 1 ↔ p ∈ compOf adjFull M q0)) :
    keepLargestStage M = M := by
  have hq0nz : M q0 ≠ 0 := by rw [hq0]; decide
  have hl0 : measure_label M 0 q0 ≠ 0 := by
    intro hz
    exact hq0nz ((measure_label_eq_zero_iff M 0 q0).mp hz)
  have hall : ∀ p, measure_label M 0 p = 0 ∨ measure_label M 0 p = measure_label M 0 q0 := by
    intro p
    rcases hval p with hv | hv
    · exact Or.inl ((measure_label_eq_zero_iff M 0 p).mpr hv)
    · exact Or.inr (measure_label_eq_of_mem ((hcomp p).mp hv) 0)
  have hllv : largest_label_volume (flatten (measure_label M 0)) 0 =
      some (measure_label M 0 q0) :=
    llv_single_label hl0 ⟨q0, rfl⟩ hall
  funext p
  rw [keepLargest_some_char hval hllv p]
  rcases hval p with hv | hv
  · rw [hv, if_neg]
    intro hc
    have hpz : measure_label M 0 p = 0 := (measure_label_eq_zero_iff M 0 p).mpr hv
    rw [hpz] at hc
    exact hl0 hc.symm
  · rw [hv, if_pos (measure_label_eq_of_mem ((hcomp p).mp hv) 0)]

/-- C5: after the initial 3-D labeling of the thresholded volume, the
corner-label fill sets exactly the voxels whose label equals the corner
voxel's label to 2 (the dense/background value) and leaves every other
voxel's value untouched.  Sharing the corner's label is moreover equivalent
to lying in the corner voxel's connected component. -/
theorem C5_corner_label_reclassification {d h w : ℕ}
    (image : Vol (d + 1) (h + 1) (w + 1)) (p : Idx (d + 1) (h + 1) (w + 1)) :
    (measure_label (thresholdStage image) 0 p =
        measure_label (thresholdStage image) 0 (corner0 d h w) ↔
      p ∈ compOf adjFull (thresholdStage image) (corner0 d h w)) ∧
    (measure_label (thresholdStage image) 0 p =
        measure_label (thresholdStage image) 0 (corner0 d h w) →
      airFillStage (thresholdStage image) (corner0 d h w) p = 2) ∧
    (measure_label (thresholdStage image) 0 p ≠
        measure_label (thresholdStage image) 0 (corner0 d h w) →
      airFillStage (thresholdStage image) (corner0 d h w) p = thresholdStage image p) := by
  have hnz : ∀ q : Idx (d + 1) (h + 1) (w + 1), thresholdStage image q ≠ 0 := by
    intro q
    rcases thresholdStage_val image q with hv | hv <;> rw [hv] <;> decide
  refine ⟨⟨?_, ?_⟩, ?_, ?_⟩
  · intro hl
    have hc := compOf_eq_of_mlabel_eq adjFull_symm (hnz p) (hnz (corner0 d h w)) hl
    rw [← hc]
    exact self_mem_compOf adjFull (thresholdStage image) p
  · intro hmem
    exact mlabel_eq_of_mem adjFull_symm hmem 0
  · intro hl
    unfold airFillStage
    rw [if_pos hl.symm]
  · intro hl
    unfold airFillStage
    rw [if_neg (fun hc => hl hc.symm)]

/-- Witness for C5 at the concrete 1×1×2 volume `imgW`: the corner voxel
(sharing its own label) is set to 2, and the air voxel next to it (with a
different label) keeps its thresholded value. -/
theorem C5_witness :
    airFillStage (thresholdStage imgW) (corner0 0 0 1) (corner0 0 0 1) = 2 ∧
    airFillStage (thresholdStage imgW) (corner0 0 0 1) (0, 0, 1) =
      thresholdStage imgW (0, 0, 1) :=
  ⟨(C5_corner_label_reclassification imgW (corner0 0 0 1)).2.1 rfl,
    (C5_corner_label_reclassification imgW (0, 0, 1)).2.2 (by decide)⟩

/-- C2 (amended): every labeling step performed by `segment_lungs` uses
skimage's default full connectivity, under which any two distinct voxels
whose coordinates each differ by at most one — including diagonally
adjacent voxels — are connected whenever they hold the same value, and
hence receive the same label.  (The claim's face-only connectivity is
refuted by `C2_counterexample`.) -/
theorem C2_full_connectivity_labels {d h w : ℕ} (v : Vol d h w) (bg : ℤ)
    (p q : Idx d h w) (hadj : adjFull p q) (hval : v p = v q) :
    measure_label v bg p = measure_label v bg q := by
  have hmem : q ∈ compOf adjFull v p := by
    rw [mem_compOf_iff]
    exact Relation.ReflTransGen.tail Relation.ReflTransGen.refl ⟨hadj, hval⟩
  exact (mlabel_eq_of_mem adjFull_symm hmem bg).symm

/-- Witness for C2's amended theorem: on a constant 1×1×2 volume the two
(face-)adjacent voxels share a label. -/
theorem C2_witness :
    measure_label volConst 0 (0, 0, 0) = measure_label volConst 0 (0, 0, 1) :=
  C2_full_connectivity_labels volConst 0 (0, 0, 0) (0, 0, 1) (by decide) (by decide)

/-- C2 (counterexample): on the concrete volume `imgC2`, whose thresholded
form `binC2` is exactly the array handed to the first labeling pass of
`segment_lungs`, the two air voxels at (0,0,0) and (0,1,1) touch only
diagonally (they are not face-adjacent), yet the labeling used by the code
assigns them the same label; a face-connectivity labeling, as the claim
describes, would assign them different labels. -/
theorem C2_counterexample :
    thresholdStage imgC2 = binC2 ∧
    measure_label binC2 0 (0, 0, 0) = measure_label binC2 0 (0, 1, 1) ∧
    ¬ adjFace ((0 : Fin 1), (0 : Fin 2), (0 : Fin 2)) ((0 : Fin 1), (1 : Fin 2), (1 : Fin 2)) ∧
    measure_label_face binC2 0 (0, 0, 0) ≠ measure_label_face binC2 0 (0, 1, 1) := by
  refine ⟨by decide, by decide, by decide, by decide⟩

/-- C3 (amended): `generate_mesh_from_scan` invokes the marching-cubes
extraction with the iso-value fixed at 0 (the lower of the two mask
states, not their midpoint), passes `step_size` through unchanged as the
sub-sampling step, and hands over the mask transposed by `(2, 1, 0)`. -/
theorem C3_mesh_call_arguments {d h w : ℕ} (mask : Vol d h w) (step_size : ℕ)
    (p : Idx w h d) :
    (generate_mesh_from_scan mask step_size).level = 0 ∧
    (generate_mesh_from_scan mask step_size).step_size = step_size ∧
    (generate_mesh_from_scan mask step_size).volume p = mask (p.2.2, p.2.1, p.1) :=
  ⟨rfl, rfl, rfl⟩

/-- C3 (counterexample): the iso-value passed by `generate_mesh_from_scan`
is 0, which is not the midpoint 1/2 of the two mask states 0 and 1 that
the claim asserts. -/
theorem C3_counterexample :
    (generate_mesh_from_scan maskC7 1).level = 0 ∧
    (generate_mesh_from_scan maskC7 1).level ≠ (0 + 1) / 2 := by
  refine ⟨rfl, ?_⟩
  intro hc
  have hc0 : (generate_mesh_from_scan maskC7 1).level = 0 := rfl
  rw [hc0] at hc
  norm_num at hc

/-- C8 (spec-modelled): the validating segmentation entry point raises the
input-shape error exactly for volumes with a degenerate (zero-extent)
dimension, and an input-shape error is the only failure it can produce —
in particular the mid-algorithm corner `IndexError` of the bare algorithm
can never escape it, and no partial result accompanies a failure (the
error constructor carries no buffer). -/
theorem C8_shape_validation (d h w : ℕ) (image : Vol d h w) (fill : Bool) :
    (segment_lungs_validated d h w image fill =
        Except.error SegFailure.inputShapeError ↔ d = 0 ∨ h = 0 ∨ w = 0) ∧
    (∀ e, segment_lungs_validated d h w image fill = Except.error e →
        e = SegFailure.inputShapeError) := by
  match d, h, w, image with
  | dd + 1, hh + 1, ww + 1, image =>
    constructor
    · constructor
      · intro hc
        exact absurd hc (by simp [segment_lungs_validated])
      · intro hc
        omega
    · intro e he
      exact absurd he (by simp [segment_lungs_validated])
  | 0, hh, ww, image =>
    exact ⟨iff_of_true rfl (Or.inl rfl), fun e he => by
      simp only [segment_lungs_validated, Except.error.injEq] at he
      exact he.symm⟩
  | dd + 1, 0, ww, image =>
    exact ⟨iff_of_true rfl (Or.inr (Or.inl rfl)), fun e he => by
      simp only [segment_lungs_validated, Except.error.injEq] at he
      exact he.symm⟩
  | dd + 1, hh + 1, 0, image =>
    exact ⟨iff_of_true rfl (Or.inr (Or.inr rfl)), fun e he => by
      simp only [segment_lungs_validated, Except.error.injEq] at he
      exact he.symm⟩

/-- Witness for C8: a concrete degenerate volume (depth 0) yields the
input-shape error, and any error it yields is the input-shape one. -/
theorem C8_witness :
    segment_lungs_validated 0 1 1 (fun p => p.1.elim0) true =
      Except.error SegFailure.inputShapeError ∧
    SegFailure.inputShapeError = SegFailure.inputShapeError :=
  ⟨(C8_shape_validation 0 1 1 (fun p => p.1.elim0) true).1.mpr (Or.inl rfl),
    (C8_shape_validation 0 1 1 (fun p => p.1.elim0) true).2
      SegFailure.inputShapeError rfl⟩

/-- C9: running the `segment_lungs` body over its buffer state leaves the
caller's `image` buffer exactly as it was (the thresholding line allocates
a fresh `binary_image`, and every in-place masked assignment targets
`binary_image` or `labels`, never `image`); the state run agrees with the
pure `segment_lungs` function; and `generate_mesh_from_scan` leaves the
caller's mask unchanged (the transpose is a read-only view and the
marching-cubes call only reads it). -/
theorem C9_no_upstream_buffer_mutation {d h w : ℕ} (fill : Bool)
    (s : SegmenterState (d + 1) (h + 1) (w + 1)) (t : MeshExtractState d h w)
    (step_size : ℕ) :
    (segment_lungs_state fill s).image = s.image ∧
    (segment_lungs_state fill s).binary_image = segment_lungs s.image fill ∧
    (generate_mesh_state t step_size).1.mask = t.mask :=
  ⟨rfl, rfl, rfl⟩

/-- C6: the final stage of `segment_lungs` flips the foreground/background
sense of the pre-inversion buffer (pointwise `2 − x`), labels the result in
3-D once more, and keeps exactly the voxels labeled like `l_max`: when the
largest-component query returns a label, the output is the indicator of
that label's voxels, and the label's voxel count bounds the count of every
other label; when it returns none — which happens exactly when the
inverted volume has no foreground voxel at all — the returned mask is
all-background, with no error (the function is total). -/
theorem C6_invert_and_keep_largest {d h w : ℕ}
    (image : Vol (d + 1) (h + 1) (w + 1)) (fill : Bool) :
    (∀ p, invertStage (preInvert image fill) p = 2 - preInvert image fill p) ∧
    (largest_label_volume
        (flatten (measure_label (invertStage (preInvert image fill)) 0)) 0 = none ↔
      ∀ p, invertStage (preInvert image fill) p = 0) ∧
    (largest_label_volume
        (flatten (measure_label (invertStage (preInvert image fill)) 0)) 0 = none →
      ∀ p, segment_lungs image fill p = 0) ∧
    (∀ lm, largest_label_volume
        (flatten (measure_label (invertStage (preInvert image fill)) 0)) 0 = some lm →
      lm ≠ 0 ∧
      (∀ p, segment_lungs image fill p =
        if measure_label (invertStage (preInvert image fill)) 0 p = lm then 1 else 0) ∧
      (∀ u, u ≠ 0 →
        (flatten (measure_label (invertStage (preInvert image fill)) 0)).count u ≤
          (flatten (measure_label (invertStage (preInvert image fill)) 0)).count lm)) := by
  have hval : ∀ p, invertStage (preInvert image fill) p = 0 ∨
      invertStage (preInvert image fill) p = 1 :=
    invert_val (preInvert_val image fill)
  refine ⟨fun p => invertStage_eq _ p, llv_labels_none_iff _, ?_, ?_⟩
  · intro hnone p
    rw [segment_lungs_eq_stages, keepLargest_none_char hnone]
    exact (llv_labels_none_iff _).mp hnone p
  · intro lm hsome
    have hspec := largest_label_volume_some_spec hsome
    refine ⟨hspec.2.1, ?_, ?_⟩
    · intro p
      rw [segment_lungs_eq_stages]
      exact keepLargest_some_char hval hsome p
    · intro u hu
      by_cases hmem : u ∈ flatten (measure_label (invertStage (preInvert image fill)) 0)
      · exact hspec.2.2 u hmem hu
      · rw [List.count_eq_zero_of_not_mem hmem]
        exact Nat.zero_le _

/-- Witness for C6 at the concrete volume `imgW` without the fill stage:
the largest-component query returns label 2, the air voxel is kept as
foreground, and the corner voxel becomes background. -/
theorem C6_witness :
    segment_lungs imgW false ((0 : Fin 1), (0 : Fin 1), (1 : Fin 2)) = 1 ∧
    segment_lungs imgW false ((0 : Fin 1), (0 : Fin 1), (0 : Fin 2)) = 0 := by
  have hc := (C6_invert_and_keep_largest imgW false).2.2.2 2 (by decide)
  constructor
  · rw [hc.2.1 ((0 : Fin 1), (0 : Fin 1), (1 : Fin 2))]
    decide
  · rw [hc.2.1 ((0 : Fin 1), (0 : Fin 1), (0 : Fin 2))]
    decide

/-- C1 (amended): with `fill_lung_structures=True`, for every slice of the
(two-valued) working volume the algorithm re-runs connected-component
labeling on that slice's DENSE voxels (the slice minus one, labeling the
nonzero entries), finds the single largest dense region by voxel count,
leaves a slice containing no dense voxel unchanged, and reclassifies every
other DENSE voxel of the slice as non-dense (value 1); non-dense voxels
are never reclassified as dense.  (The claim's opposite direction —
labeling the non-dense voxels and reclassifying non-dense regions as
dense — is refuted by `C1_counterexample`.) -/
theorem C1_fill_relabels_dense_voxels {d h w : ℕ} (b : Vol d h w)
    (hb : ∀ q, b q = 1 ∨ b q = 2) (i : Fin d) :
    (largest_label_volume
        (flatten (measure_label (fun p => sliceVol b i p - 1) 0)) 0 = none ↔
      ∀ jk : Fin h × Fin w, b (i, jk.1, jk.2) = 1) ∧
    (largest_label_volume
        (flatten (measure_label (fun p => sliceVol b i p - 1) 0)) 0 = none →
      ∀ jk : Fin h × Fin w, fillStage b (i, jk.1, jk.2) = b (i, jk.1, jk.2)) ∧
    (∀ lm, largest_label_volume
        (flatten (measure_label (fun p => sliceVol b i p - 1) 0)) 0 = some lm →
      lm ≠ 0 ∧
      (∀ jk : Fin h × Fin w,
        measure_label (fun p => sliceVol b i p - 1) 0 (0, jk.1, jk.2) = lm →
        fillStage b (i, jk.1, jk.2) = b (i, jk.1, jk.2) ∧ b (i, jk.1, jk.2) = 2) ∧
      (∀ jk : Fin h × Fin w,
        measure_label (fun p => sliceVol b i p - 1) 0 (0, jk.1, jk.2) ≠ lm →
        fillStage b (i, jk.1, jk.2) = 1) ∧
      (∀ jk : Fin h × Fin w, b (i, jk.1, jk.2) = 1 →
        fillStage b (i, jk.1, jk.2) = 1 ∧
        measure_label (fun p => sliceVol b i p - 1) 0 (0, jk.1, jk.2) = 0) ∧
      (∀ u, u ≠ 0 →
        (flatten (measure_label (fun p => sliceVol b i p - 1) 0)).count u ≤
          (flatten (measure_label (fun p => sliceVol b i p - 1) 0)).count lm)) := by
  have hsv : ∀ p : Idx 1 h w, sliceVol b i p = b (i, p.2.1, p.2.2) := fun p => rfl
  have hfs : ∀ jk : Fin h × Fin w,
      fillStage b (i, jk.1, jk.2) = fillSliceStep (sliceVol b i) (0, jk.1, jk.2) :=
    fun jk => rfl
  have hzero : ∀ p : Idx 1 h w,
      (measure_label (fun q => sliceVol b i q - 1) 0 p = 0 ↔ sliceVol b i p = 1) := by
    intro p
    rw [measure_label_eq_zero_iff]
    constructor
    · intro hz
      omega
    · intro hz
      rw [hz]
      ring
  refine ⟨?_, ?_, ?_⟩
  · rw [llv_labels_none_iff]
    constructor
    · intro hall jk
      have hz : b (i, jk.1, jk.2) - 1 = 0 := hall (0, jk.1, jk.2)
      omega
    · intro hall p
      have hz : b (i, p.2.1, p.2.2) = 1 := hall (p.2.1, p.2.2)
      show b (i, p.2.1, p.2.2) - 1 = 0
      omega
  · intro hnone jk
    rw [hfs]
    unfold fillSliceStep
    rw [hnone]
    rfl
  · intro lm hsome
    have hspec := largest_label_volume_some_spec hsome
    have hlm0 : lm ≠ 0 := hspec.2.1
    have hred : ∀ p : Idx 1 h w, fillSliceStep (sliceVol b i) p =
        if measure_label (fun q => sliceVol b i q - 1) 0 p ≠ lm then 1
        else sliceVol b i p := by
      intro p
      unfold fillSliceStep
      rw [hsome]
    refine ⟨hlm0, ?_, ?_, ?_, ?_⟩
    · intro jk hl
      rw [hfs, hred, if_neg (fun hc => hc hl)]
      refine ⟨rfl, ?_⟩
      have hnz : sliceVol b i (0, jk.1, jk.2) ≠ 1 := by
        intro h1
        have hz := (hzero (0, jk.1, jk.2)).mpr h1
        exact hlm0 (hl.symm.trans hz)
      have hv := hb (i, jk.1, jk.2)
      rw [← hsv (0, jk.1, jk.2)] at hv ⊢
      omega
    · intro jk hl
      rw [hfs, hred, if_pos hl]
    · intro jk h1
      have hz : measure_label (fun q => sliceVol b i q - 1) 0 (0, jk.1, jk.2) = 0 :=
        (hzero (0, jk.1, jk.2)).mpr (by rw [hsv]; exact h1)
      refine ⟨?_, hz⟩
      rw [hfs, hred, if_pos (by rw [hz]; exact fun hc => hlm0 hc.symm)]
    · intro u hu
      by_cases hmem : u ∈ flatten (measure_label (fun q => sliceVol b i q - 1) 0)
      · exact hspec.2.2 u hmem hu
      · rw [List.count_eq_zero_of_not_mem hmem]
        exact Nat.zero_le _

set_option maxRecDepth 1000000 in
set_option maxHeartbeats 1000000 in
/-- Witness for C1's amended theorem on the concrete corner-filled volume
`binC1`, slice 0: the largest dense region (column 0, label 1) keeps its
voxels dense, and the smaller dense island at (0, 0, 2) (label 3) is
reclassified to 1. -/
theorem C1_witness :
    fillStage binC1 ((0 : Fin 1), (0 : Fin 2), (0 : Fin 3)) =
      binC1 ((0 : Fin 1), (0 : Fin 2), (0 : Fin 3)) ∧
    binC1 ((0 : Fin 1), (0 : Fin 2), (0 : Fin 3)) = 2 ∧
    fillStage binC1 ((0 : Fin 1), (0 : Fin 2), (2 : Fin 3)) = 1 := by
  have hc := (C1_fill_relabels_dense_voxels binC1 (by decide) 0).2.2 1 (by decide)
  have h1 := hc.2.1 ((0 : Fin 2), (0 : Fin 3)) (by decide)
  have h2 := hc.2.2.1 ((0 : Fin 2), (2 : Fin 3)) (by decide)
  exact ⟨h1.1, h1.2, h2⟩

set_option maxRecDepth 1000000 in
set_option maxHeartbeats 4000000 in
/-- C1 (counterexample): on the concrete volume `imgC1` the per-slice fill
of the code labels the dense voxels and reclassifies the smaller dense
island at (0, 0, 2) as non-dense, so the final mask contains it; a fill
stage following the claim's words (labeling the non-dense voxels and
turning smaller non-dense regions dense) leaves the island dense and the
final mask excludes it.  The two pipelines disagree at that voxel. -/
theorem C1_counterexample :
    segment_lungs imgC1 true ((0 : Fin 1), (0 : Fin 2), (2 : Fin 3)) = 1 ∧
    segment_lungs_specFill imgC1 true ((0 : Fin 1), (0 : Fin 2), (2 : Fin 3)) = 0 := by
  have h1 : thresholdStage imgC1 = binC1 := by decide
  have h2 : airFillStage binC1 (corner0 0 1 2) = binC1 := by decide
  have h3 : fillStage binC1 = binC1fill := by decide
  have h5 : fillStageSpec binC1 = binC1 := by decide
  constructor
  · show keepLargestStage (invertStage (if true then
      fillStage (airFillStage (thresholdStage imgC1) (corner0 0 1 2))
      else airFillStage (thresholdStage imgC1) (corner0 0 1 2)))
      ((0 : Fin 1), (0 : Fin 2), (2 : Fin 3)) = 1
    rw [h1, h2]
    simp only [if_true]
    rw [h3]
    decide
  · show keepLargestStage (invertStage (if true then
      fillStageSpec (airFillStage (thresholdStage imgC1) (corner0 0 1 2))
      else airFillStage (thresholdStage imgC1) (corner0 0 1 2)))
      ((0 : Fin 1), (0 : Fin 2), (2 : Fin 3)) = 0
    rw [h1, h2]
    simp only [if_true]
    rw [h5]
    decide

/-- C7 (amended): with `fill_lung_structures=False`, `segment_lungs` is
idempotent on its own output re-expressed in the original threshold sense:
re-running segmentation on `maskAsScan` of the output mask reproduces the
mask, for every input volume.  (With `fill_lung_structures=True` this can
fail — see `C7_counterexample` — because the per-slice fill can merge a
dense region touching the corner voxel into the mask, after which the
corner-label heuristic of the second run erases the whole mask.) -/
theorem C7_idempotent_without_fill {d h w : ℕ}
    (image : Vol (d + 1) (h + 1) (w + 1)) :
    segment_lungs (maskAsScan (segment_lungs image false)) false =
      segment_lungs image false := by
  set M := segment_lungs image false with hMdef
  have hM : M = keepLargestStage (invertStage (preInvert image false)) :=
    hMdef.trans (segment_lungs_eq_stages image false)
  have hb3v : ∀ q, preInvert image false q = 1 ∨ preInvert image false q = 2 :=
    preInvert_val image false
  have hb'v : ∀ p, invertStage (preInvert image false) p = 0 ∨
      invertStage (preInvert image false) p = 1 := invert_val hb3v
  have hb3c : preInvert image false (corner0 d h w) = 2 := by
    show airFillStage (thresholdStage image) (corner0 d h w) (corner0 d h w) = 2
    unfold airFillStage
    rw [if_pos rfl]
  have hb'c : invertStage (preInvert image false) (corner0 d h w) = 0 := by
    rw [invertStage_eq, hb3c]
    norm_num
  rcases hR : largest_label_volume
      (flatten (measure_label (invertStage (preInvert image false)) 0)) 0 with - | lm
  · have hM0 : ∀ p, M p = 0 := by
      intro p
      rw [hM, keepLargest_none_char hR]
      exact (llv_labels_none_iff _).mp hR p
    have hMv : ∀ p, M p = 0 ∨ M p = 1 := fun p => Or.inl (hM0 p)
    have hT : thresholdStage (maskAsScan M) = fun p => 2 - M p :=
      threshold_maskAsScan hMv
    have hTv : ∀ q : Idx (d + 1) (h + 1) (w + 1),
        (fun p => 2 - M p) q = 1 ∨ (fun p => 2 - M p) q = 2 := by
      intro q
      rcases hMv q with hv | hv <;> simp only <;> rw [hv]
      · exact Or.inr (by norm_num)
      · exact Or.inl (by norm_num)
    have hTc : (fun p => 2 - M p) (corner0 d h w) = 2 := by
      simp only
      rw [hM0]
      norm_num
    rw [segment_lungs_eq_stages]
    have hpre : preInvert (maskAsScan M) false = fun p => 2 - M p := by
      show airFillStage (thresholdStage (maskAsScan M)) (corner0 d h w) = _
      rw [hT]
      exact airFill_dense_corner_noop hTv hTc
    rw [hpre]
    have hinv : invertStage (fun p => 2 - M p) = M := by
      funext p
      rw [invertStage_eq]
      ring
    rw [hinv]
    exact keepLargest_none_char ((llv_labels_none_iff M).mpr hM0)
  · have hspec := largest_label_volume_some_spec hR
    have hlm0 : lm ≠ 0 := hspec.2.1
    obtain ⟨q0, hq0⟩ := exists_point_of_llv_some hR
    have hchar : ∀ p, M p =
        if measure_label (invertStage (preInvert image false)) 0 p = lm then 1 else 0 := by
      intro p
      rw [hM]
      exact keepLargest_some_char hb'v hR p
    have hMv : ∀ p, M p = 0 ∨ M p = 1 := by
      intro p
      rw [hchar p]
      split
      · exact Or.inr rfl
      · exact Or.inl rfl
    have hMq0 : M q0 = 1 := by
      rw [hchar q0, if_pos hq0]
    have hMc : M (corner0 d h w) = 0 := by
      rw [hchar, if_neg]
      intro hc
      have hz : measure_label (invertStage (preInvert image false)) 0 (corner0 d h w) = 0 :=
        (measure_label_eq_zero_iff _ 0 _).mpr hb'c
      rw [hz] at hc
      exact hlm0 hc.symm
    have hSiff : ∀ p, (M p = 1 ↔
        measure_label (invertStage (preInvert image false)) 0 p = lm) := by
      intro p
      rw [hchar p]
      by_cases hc : measure_label (invertStage (preInvert image false)) 0 p = lm
      · rw [if_pos hc]
        exact iff_of_true rfl hc
      · rw [if_neg hc]
        exact iff_of_false (by norm_num) hc
    have hcompb' : ∀ p, (measure_label (invertStage (preInvert image false)) 0 p = lm ↔
        p ∈ compOf adjFull (invertStage (preInvert image false)) q0) :=
      label_eq_lm_iff_mem_comp hlm0 hq0
    have hcompM : compOf adjFull M q0 =
        compOf adjFull (invertStage (preInvert image false)) q0 := by
      apply Finset.Subset.antisymm
      · intro x hx
        have hMx : M x = M q0 := value_eq_of_mem_compOf hx
        rw [hMq0] at hMx
        exact (hcompb' x).mp ((hSiff x).mp hMx)
      · intro x hx
        rw [mem_compOf_iff] at hx ⊢
        apply rtg_value_transfer hx
        intro y hy
        have hyS : y ∈ compOf adjFull (invertStage (preInvert image false)) q0 :=
          (mem_compOf_iff adjFull _ q0 y).mpr hy
        have hy1 : M y = 1 := (hSiff y).mpr ((hcompb' y).mpr hyS)
        rw [hy1, hMq0]
    have hiff2 : ∀ p, (M p = 1 ↔ p ∈ compOf adjFull M q0) := by
      intro p
      rw [hSiff p, hcompb' p, hcompM]
    have hT : thresholdStage (maskAsScan M) = fun p => 2 - M p :=
      threshold_maskAsScan hMv
    have hTv : ∀ q : Idx (d + 1) (h + 1) (w + 1),
        (fun p => 2 - M p) q = 1 ∨ (fun p => 2 - M p) q = 2 := by
      intro q
      rcases hMv q with hv | hv <;> simp only <;> rw [hv]
      · exact Or.inr (by norm_num)
      · exact Or.inl (by norm_num)
    have hTc : (fun p => 2 - M p) (corner0 d h w) = 2 := by
      simp only
      rw [hMc]
      norm_num
    rw [segment_lungs_eq_stages]
    have hpre : preInvert (maskAsScan M) false = fun p => 2 - M p := by
      show airFillStage (thresholdStage (maskAsScan M)) (corner0 d h w) = _
      rw [hT]
      exact airFill_dense_corner_noop hTv hTc
    rw [hpre]
    have hinv : invertStage (fun p => 2 - M p) = M := by
      funext p
      rw [invertStage_eq]
      ring
    rw [hinv]
    exact keepLargest_of_single_comp hMv hMq0 hiff2

set_option maxRecDepth 1000000 in
set_option maxHeartbeats 4000000 in
/-- C7 (counterexample): on the concrete volume `imgC7` with
`fill_lung_structures=True`, the per-slice fill merges the dense corner
island into the mask; feeding the resulting mask (re-expressed in
threshold sense) back into `segment_lungs` then puts air at the corner
voxel, so the corner-label heuristic reclassifies the whole mask as
background and the second run returns the all-zero mask instead of the
first run's mask: re-running segmentation does NOT yield the same mask. -/
theorem C7_counterexample :
    segment_lungs imgC7 true ((0 : Fin 1), (0 : Fin 2), (0 : Fin 3)) = 1 ∧
    segment_lungs (maskAsScan (segment_lungs imgC7 true)) true
      ((0 : Fin 1), (0 : Fin 2), (0 : Fin 3)) = 0 := by
  have h1 : thresholdStage imgC7 = binC7 := by decide
  have h2 : airFillStage binC7 (corner0 0 1 2) = binC7 := by decide
  have h3 : fillStage binC7 = binC7fill := by decide
  have h4 : keepLargestStage (invertStage binC7fill) = maskC7 := by decide
  have hrun1 : segment_lungs imgC7 true = maskC7 := by
    show keepLargestStage (invertStage (if true then
      fillStage (airFillStage (thresholdStage imgC7) (corner0 0 1 2))
      else airFillStage (thresholdStage imgC7) (corner0 0 1 2))) = maskC7
    rw [h1, h2]
    simp only [if_true]
    rw [h3, h4]
  have h6 : thresholdStage (maskAsScan maskC7) = binC7b := by decide
  have h7 : airFillStage binC7b (corner0 0 1 2) = ((fun _ => 2) : Vol 1 2 3) := by decide
  have h8 : fillStage ((fun _ => 2) : Vol 1 2 3) = ((fun _ => 2) : Vol 1 2 3) := by decide
  constructor
  · rw [hrun1]
    decide
  · rw [hrun1]
    show keepLargestStage (invertStage (if true then
      fillStage (airFillStage (thresholdStage (maskAsScan maskC7)) (corner0 0 1 2))
      else airFillStage (thresholdStage (maskAsScan maskC7)) (corner0 0 1 2)))
      ((0 : Fin 1), (0 : Fin 2), (0 : Fin 3)) = 0
    rw [h6, h7]
    simp only [if_true]
    rw [h8]
    decide

/-- C10: `largest_label_volume(im, bg)` returns `None` exactly when `im`
has no element different from `bg`; when it returns a value, that value
occurs in `im`, differs from `bg`, and its occurrence count is maximal
among all non-`bg` values of `im`. -/
theorem C10_largest_label_volume_contract (im : List ℤ) (bg : ℤ) :
    (largest_label_volume im bg = none ↔ ∀ x ∈ im, x = bg) ∧
    ∀ v, largest_label_volume im bg = some v →
      v ∈ im ∧ v ≠ bg ∧ ∀ u ∈ im, u ≠ bg → im.count u ≤ im.count v :=
  ⟨largest_label_volume_eq_none_iff im bg, fun _ hv => largest_label_volume_some_spec hv⟩

/-- Witness for C10 on the concrete list `[0, 2, 2]` with background 0:
the returned label 2 occurs, differs from the background, and its count
bounds the count of the non-background value 2. -/
theorem C10_witness :
    (2 : ℤ) ∈ [(0 : ℤ), 2, 2] ∧ (2 : ℤ) ≠ 0 ∧
    List.count (2 : ℤ) [(0 : ℤ), 2, 2] ≤ List.count (2 : ℤ) [(0 : ℤ), 2, 2] := by
  have hc := (C10_largest_label_volume_contract [(0 : ℤ), 2, 2] 0).2 2 (by decide)
  exact ⟨hc.1, hc.2.1, hc.2.2 2 (by decide) (by decide)⟩

end LungSeg

